import Mathlib

/-!
Shallow embedding of the app-ads-toolkit reconciliation engine
(`app_ads_checker.py`, `tools/app_ads_update.py`, `tools/sellers_append.py`,
`tools/sellers_validate.py`) and proofs about it.

Modelling conventions:
* Python's `\s` character class (ASCII range) is modelled as space, tab, LF,
  CR, VT, FF.
* `str.splitlines` is modelled as splitting on `'\n'`, dropping one trailing
  CR per fragment and the empty fragment after a final newline; this agrees
  with Python on all LF/CRLF text.
* `str.lower` / `str.upper` are modelled by `String.toLower` / `String.toUpper`
  (ASCII case mapping).
* JSON numbers are modelled as integers; floats do not occur in the documents
  the claims are about.
-/

/-- Python `\s` (ASCII range), as used by `re` in the entry grammar. -/
def pyWsChar (c : Char) : Bool :=
  c = ' ' || c = '\t' || c = '\n' || c = '\r' || c = '\x0b' || c = '\x0c'

/-- Characters allowed in the first two capture groups of `ENTRY_RE`: `[^,#\s]`. -/
def tokChar (c : Char) : Bool :=
  !(c = ',' || c = '#' || pyWsChar c)

/-- `[A-Za-z0-9]`, the certification-authority-id alphabet of `ENTRY_RE`. -/
def alnumChar (c : Char) : Bool :=
  ('A' ≤ c && c ≤ 'Z') || ('a' ≤ c && c ≤ 'z') || ('0' ≤ c && c ≤ '9')

/-- Consume a leading `\s*`. -/
def dropWs (cs : List Char) : List Char :=
  cs.dropWhile pyWsChar

/-- `str.strip()`: drop leading and trailing whitespace. -/
def pyStrip (s : String) : String :=
  ((dropWs ((dropWs s.data).reverse)).reverse).asString

/-- An app-ads.txt authorization record as the tools build it from `ENTRY_RE`:
system domain, publisher account id, relationship, certification authority id
(an absent certification id is the empty string). -/
structure Entry where
  system : String
  pubid : String
  rel : String
  caid : String
deriving DecidableEq, Repr

/-- Strip a literal character sequence from the front of the input. -/
def stripLit : List Char → List Char → Option (List Char)
  | [], cs => some cs
  | _ :: _, [] => none
  | p :: ps, c :: cs => if c = p then stripLit ps cs else none

/-- Match the alternation `(DIRECT|RESELLER)` of `ENTRY_RE`. -/
def matchRel (cs : List Char) : Option (String × List Char) :=
  match stripLit "DIRECT".data cs with
  | some r => some ("DIRECT", r)
  | none =>
    match stripLit "RESELLER".data cs with
    | some r => some ("RESELLER", r)
    | none => none

/-- `\s*([^,#\s]+)`: skip whitespace, then take a maximal non-empty run of
token characters, returning the token and the rest of the input. -/
def parseTok (cs : List Char) : Option (List Char × List Char) :=
  if (dropWs cs).takeWhile tokChar = [] then none
  else some ((dropWs cs).takeWhile tokChar, (dropWs cs).dropWhile tokChar)

/-- `\s*,`: skip whitespace, then consume a comma. -/
def parseComma (cs : List Char) : Option (List Char) :=
  match dropWs cs with
  | ',' :: r => some r
  | _ => none

/-- The regex tail `\s*(?:,\s*([A-Za-z0-9]+))?\s*$`: an optional fourth field,
returning its raw text (`""` when absent), or `none` when the tail fails. -/
def parseCaidEnd (cs : List Char) : Option String :=
  match dropWs cs with
  | [] => some ""
  | ',' :: r6 =>
    if (dropWs r6).takeWhile alnumChar = [] then none
    else if dropWs ((dropWs r6).dropWhile alnumChar) = [] then
      some ((dropWs r6).takeWhile alnumChar).asString
    else none
  | _ => none

/-- Deterministic equivalent of `ENTRY_RE.match` on one line: the regex
`^\s*([^,#\s]+)\s*,\s*([^,#\s]+)\s*,\s*(DIRECT|RESELLER)\s*(?:,\s*([A-Za-z0-9]+))?\s*$`.
Returns the four raw capture groups, with an absent caid group as `""`. -/
def entryGroups (cs : List Char) : Option (String × String × String × String) :=
  (parseTok cs).bind fun g1 =>
  (parseComma g1.2).bind fun r2 =>
  (parseTok r2).bind fun g2 =>
  (parseComma g2.2).bind fun r4 =>
  (matchRel (dropWs r4)).bind fun gr =>
  (parseCaidEnd gr.2).map fun cd => (g1.1.asString, g2.1.asString, gr.1, cd)

/-- `LINE_RE` (`^\s*([#].*)?$`): a blank line or a possibly indented `#` comment. -/
def isCommentOrBlank (line : String) : Bool :=
  match dropWs line.data with
  | [] => true
  | c :: _ => c = '#'

/-- Python `str.lower()` (ASCII case mapping), as a map over the characters. -/
def pyLower (s : String) : String :=
  (s.data.map Char.toLower).asString

/-- Python `str.upper()` (ASCII case mapping), as a map over the characters. -/
def pyUpper (s : String) : String :=
  (s.data.map Char.toUpper).asString

/-- Match one line against the entry grammar and normalize it the way every
tool does: `(system.lower(), pubid, rel.upper(), (caid or '').lower())`. -/
def parseEntryLine (line : String) : Option Entry :=
  (entryGroups line.data).map fun g =>
    ⟨pyLower g.1, g.2.1, pyUpper g.2.2.1, pyLower g.2.2.2⟩

/-- `format_entry` / `fmt`: serialize a record, appending the caid field only
when it is non-empty. -/
def formatEntry (e : Entry) : String :=
  e.system ++ ", " ++ e.pubid ++ ", " ++ e.rel ++
    (if e.caid = "" then "" else ", " ++ e.caid)

/-- Strict lexicographic comparison of character lists: Python string `<`
(code-point lexicographic). -/
def strLtb : List Char → List Char → Bool
  | [], [] => false
  | [], _ :: _ => true
  | _ :: _, [] => false
  | c :: cs, d :: ds => if c = d then strLtb cs ds else decide (c < d)

/-- Python string `≤`: not strictly greater. -/
def strLe (a b : String) : Prop :=
  (!strLtb b.data a.data) = true

instance : DecidableRel strLe :=
  fun a b => inferInstanceAs (Decidable ((!strLtb b.data a.data) = true))

/-- The tools' sort key `lambda x: (x[0], x[1], x[2], x[3])`, as a
lexicographically ordered value (used to state order facts). -/
def entryKey (e : Entry) : Lex (String × Lex (String × Lex (String × String))) :=
  toLex (e.system, toLex (e.pubid, toLex (e.rel, e.caid)))

/-- Python tuple comparison on the four fields (the tools' sort key):
first differing field decides. -/
def entryLeb (a b : Entry) : Bool :=
  if a.system = b.system then
    if a.pubid = b.pubid then
      if a.rel = b.rel then !strLtb b.caid.data a.caid.data
      else strLtb a.rel.data b.rel.data
    else strLtb a.pubid.data b.pubid.data
  else strLtb a.system.data b.system.data

/-- Natural record order: lexicographic on (system, pubid, rel, caid). -/
def entryLe (a b : Entry) : Prop :=
  entryLeb a b = true

instance : DecidableRel entryLe :=
  fun a b => inferInstanceAs (Decidable (entryLeb a b = true))

/-- `sorted(set(l), key=lambda x: (x[0], x[1], x[2], x[3]))`: canonical
duplicate-free, sorted presentation of a record collection.  Python's sort is
modelled as insertion sort: on the duplicate-free input, with the injective
full-tuple key, every sort produces the one sorted permutation. -/
def canon (l : List Entry) : List Entry :=
  List.insertionSort entryLe l.dedup

/-- Split a character list on a separator character (`str.split(sep)`:
the result always has one more fragment than there are separators). -/
def splitOnChar (sep : Char) : List Char → List (List Char)
  | [] => [[]]
  | c :: rest =>
    if c = sep then [] :: splitOnChar sep rest
    else
      match splitOnChar sep rest with
      | l :: ls => (c :: l) :: ls
      | [] => [[c]]

/-- Python `str.split(sep)` for a one-character separator. -/
def pySplit (sep : Char) (s : String) : List String :=
  (splitOnChar sep s.data).map List.asString

/-- `str.splitlines` for LF/CRLF text: split on `'\n'`, drop one trailing CR
per fragment and the empty fragment after a final newline. -/
def pySplitlines (s : String) : List String :=
  let ls := (splitOnChar '\n' s.data).map fun l =>
    (if l.getLast? = some '\r' then l.dropLast else l).asString
  match ls.getLast? with
  | some "" => ls.dropLast
  | _ => ls

/-- `parse_entries_from_text` (update tool): the valid records in input order
and the invalid-lines channel, which receives `raw.strip()` for every
non-blank, non-comment line that fails the entry grammar. -/
def parse_entries_from_text (text : String) : List Entry × List String :=
  (pySplitlines text).foldl
    (fun acc raw =>
      if isCommentOrBlank raw then acc
      else
        match parseEntryLine raw with
        | some e => (acc.1 ++ [e], acc.2)
        | none => (acc.1, acc.2 ++ [pyStrip raw]))
    ([], [])

/-- `parse_entries` (checker): keep only grammar-matching lines, then dedupe
and canonically sort; a mismatching line is silently dropped. -/
def parse_entries (text : String) : List Entry :=
  canon ((pySplitlines text).filterMap fun raw =>
    if isCommentOrBlank raw then none else parseEntryLine raw)

/-- The update tool's merge: the master set unioned with every partner file's
valid records, canonically sorted
(`merged = sorted(set(master_set) | partner entries, key=...)`). -/
def mergeMaster (master : List Entry) (partnerTexts : List String) : List Entry :=
  canon (master ++ (partnerTexts.map fun t => (parse_entries_from_text t).1).flatten)

/-- `added = [e for e in merged if e not in master_set]`. -/
def addedOf (master : List Entry) (partnerTexts : List String) : List Entry :=
  (mergeMaster master partnerTexts).filter fun e => decide (e ∉ master)

/-- The checker's per-publisher diff:
`missing = sorted(master_set - current_set)`, `extra = sorted(current_set - master_set)`. -/
def diffSets (reference candidate : List Entry) : List Entry × List Entry :=
  (canon (reference.filter fun e => decide (e ∉ candidate)),
   canon (candidate.filter fun e => decide (e ∉ reference)))

/-- `status = "OK" if not missing else "MISSING"`. -/
def statusOfDiff (reference candidate : List Entry) : String :=
  if (diffSets reference candidate).1 = [] then "OK" else "MISSING"

/-! ## Update tool: duplicate and CAID-conflict scan -/

/-- Conflict-detection key `(system, pubid, rel)`. -/
def keyOf (e : Entry) : String × String × String :=
  (e.system, e.pubid, e.rel)

/-- The update tool's `by_key` dict: keys to duplicate-free certification-id
lists (each list models a Python `set` of ids). -/
abbrev ByKey := List ((String × String × String) × List String)

/-- The id set currently tracked for a key (empty when the key is unseen):
dict lookup. -/
def getIds (st : ByKey) (k : String × String × String) : List String :=
  match st with
  | [] => []
  | kv :: rest => if kv.1 = k then kv.2 else getIds rest k

/-- `by_key.setdefault(k, set()).add(c)`. -/
def addId (st : ByKey) (k : String × String × String) (c : String) : ByKey :=
  match st with
  | [] => [(k, [c])]
  | kv :: rest =>
    if kv.1 = k then (kv.1, if c ∈ kv.2 then kv.2 else kv.2 ++ [c]) :: rest
    else kv :: addId rest k c

/-- Seed `by_key` from the master's records (update tool, lines 74-76): every
master record contributes its certification id, the empty one included. -/
def seedByKey (master : List Entry) : ByKey :=
  master.foldl (fun st e => addId st (keyOf e) e.caid) []

/-- A CAID conflict report item `(file, fmt(e), sorted(list(caids)))`. -/
structure Conflict where
  file : String
  line : String
  existing : List String
deriving DecidableEq, Repr

/-- `sorted(list(l))` for strings (insertion sort; see `canon`). -/
def sortStrings (l : List String) : List String :=
  List.insertionSort strLe l

/-- One iteration of the update tool's partner scan (lines 85-93): record a
duplicate when the record is already in the master set; for a non-empty
certification id, raise a conflict when the key's tracked set is non-empty,
lacks this id, and holds at least one non-empty id, then add the id.
(The `setdefault` insertion of an empty set for an unseen key is observably
equivalent to leaving the key absent and is not modelled.) -/
def scanStep (masterSet : List Entry)
    (st : List (String × String) × List Conflict × ByKey) (fe : String × Entry) :
    List (String × String) × List Conflict × ByKey :=
  let dups := if fe.2 ∈ masterSet then st.1 ++ [(fe.1, formatEntry fe.2)] else st.1
  let caids := getIds st.2.2 (keyOf fe.2)
  if fe.2.caid ≠ "" then
    let confs :=
      if caids ≠ [] ∧ fe.2.caid ∉ caids ∧ caids.any (fun x => decide (x ≠ "")) then
        st.2.1 ++ [⟨fe.1, formatEntry fe.2, sortStrings caids⟩]
      else st.2.1
    (dups, confs, addId st.2.2 (keyOf fe.2) fe.2.caid)
  else (dups, st.2.1, st.2.2)

/-- The update tool's scan over all partner records, tagged with their source
file name, in file order, seeded from the master. -/
def scanPartners (master : List Entry) (recs : List (String × Entry)) :
    List (String × String) × List Conflict × ByKey :=
  recs.foldl (scanStep master) ([], [], seedByKey master)

/-- The conflicts channel of the scan. -/
def conflictsOf (master : List Entry) (recs : List (String × Entry)) : List Conflict :=
  (scanPartners master recs).2.1

/-- Specification-side description of the tracked id set: all of the master's
certification ids for key `k` (the empty one included), plus the non-empty ids
of the already-processed partner records `pre` with that key. -/
def knownIds (master pre : List Entry) (k : String × String × String) : List String :=
  (master.filter fun e => decide (keyOf e = k)).map Entry.caid ++
    ((pre.filter fun e => decide (keyOf e = k ∧ e.caid ≠ "")).map Entry.caid)

/-- Specification-side conflict list: walking the tagged partner records, a
record with a non-empty certification id that is absent from the tracked set
of its key raises a conflict exactly when that set already holds a non-empty
id, carrying the tracked set sorted; ids of non-empty-id records accumulate. -/
def conflictsSpec (master : List Entry) :
    List (String × Entry) → List Entry → List Conflict
  | [], _ => []
  | fe :: rest, pre =>
    (if fe.2.caid ≠ "" ∧ fe.2.caid ∉ knownIds master pre (keyOf fe.2) ∧
        (∃ x ∈ knownIds master pre (keyOf fe.2), x ≠ "") then
      [⟨fe.1, formatEntry fe.2, sortStrings (knownIds master pre (keyOf fe.2)).dedup⟩]
    else []) ++ conflictsSpec master rest (pre ++ [fe.2])

/-! ## Checker: per-publisher fetch-and-compare -/

/-- One row of the checker's JSON report for a publisher. -/
structure PubReport where
  status : String
  missing_lines : List String
  extra_lines : List String
  current_count : Nat
deriving DecidableEq, Repr

/-- One publisher iteration of the checker's main loop.  The fetch outcome is
`none` when both URL attempts failed and `some content` otherwise; the
`if not content` test sends both `None` and the empty string to the
ERROR_FETCHING branch. -/
def checkRow (masterSet : List Entry) (fetched : Option String) : PubReport :=
  match fetched with
  | none => ⟨"ERROR_FETCHING", [], [], 0⟩
  | some content =>
    if content = "" then ⟨"ERROR_FETCHING", [], [], 0⟩
    else
      let current := parse_entries content
      let missing := (diffSets masterSet current).1
      let extra := (diffSets masterSet current).2
      ⟨if missing = [] then "OK" else "MISSING",
       missing.map formatEntry, extra.map formatEntry, current.length⟩

/-- The checker's loop over all publisher rows: each row is processed on its
own (`continue` after a failed fetch), so one failure never aborts siblings. -/
def processRows (masterSet : List Entry) (fetches : List (Option String)) :
    List PubReport :=
  fetches.map (checkRow masterSet)

/-! ## JSON model shared by the sellers tools -/

/-- A JSON value.  Floats are not modelled: the seller documents the claims
range over carry only strings, integers, booleans, nulls, arrays, objects. -/
inductive JVal where
  | jstr : String → JVal
  | jint : Int → JVal
  | jbool : Bool → JVal
  | jnull : JVal
  | jarr : List JVal → JVal
  | jobj : List (String × JVal) → JVal

/-- A parsed JSON object (keys assumed unique, as `json.load` produces). -/
abbrev PyObj := List (String × JVal)

/-- `obj.get(k)` / `obj[k]`: first binding of the key. -/
def pyGet? (o : PyObj) (k : String) : Option JVal :=
  (o.find? fun kv => decide (kv.1 = k)).map fun kv => kv.2

/-- Python `str(v)` for the scalar values the tools feed it.  Container
reprs are approximated (no claim depends on them). -/
def pyStr (v : JVal) : String :=
  match v with
  | .jstr s => s
  | .jint n => toString n
  | .jbool true => "True"
  | .jbool false => "False"
  | .jnull => "None"
  | .jarr _ => "[...]"
  | .jobj _ => "\x7b...\x7d"

/-- Decimal digit run with Python's single-underscore grouping, continued. -/
def pyDigitsAux (acc : Nat) : List Char → Option Nat
  | [] => some acc
  | '_' :: c :: cs =>
    if c.isDigit then pyDigitsAux (acc * 10 + (c.toNat - 48)) cs else none
  | ['_'] => none
  | c :: cs =>
    if c.isDigit then pyDigitsAux (acc * 10 + (c.toNat - 48)) cs else none

/-- Decimal digit run with Python's single-underscore grouping: must start
with a digit. -/
def pyDigitsVal : List Char → Option Nat
  | [] => none
  | c :: cs => if c.isDigit then pyDigitsAux (c.toNat - 48) cs else none

/-- Python `int(str)` on decimal text: surrounding whitespace, an optional
sign, then digits (single underscores allowed between digits). -/
def pyInt? (s : String) : Option Int :=
  match (pyStrip s).data with
  | '+' :: rest => (pyDigitsVal rest).map fun n => (n : Int)
  | '-' :: rest => (pyDigitsVal rest).map fun n => -(n : Int)
  | rest => (pyDigitsVal rest).map fun n => (n : Int)

/-- `bump_minor` of sellers_append: split on `.`; with fewer than two
components, or a first or second component that `int()` rejects, return the
string unchanged; otherwise rejoin the two parsed integers with the second
incremented, dropping any further components. -/
def bump_minor (version_str : String) : String :=
  match pySplit '.' version_str with
  | p0 :: p1 :: _ =>
    match pyInt? p0, pyInt? p1 with
    | some major, some minor => toString major ++ "." ++ toString (minor + 1)
    | _, _ => version_str
  | _ => version_str

/-- The sellers document: its version value (absent key modelled as `none`)
and its sellers array; other top-level keys play no part in the claims. -/
structure SellersDoc where
  version? : Option JVal
  sellers : List PyObj

/-- `str(s["seller_id"]).strip()` when the key is present. -/
def sellerIdOf? (s : PyObj) : Option String :=
  (pyGet? s "seller_id").map fun v => pyStrip (pyStr v)

/-- Membership of a trimmed id among a document's sellers
(`sid in base_by_id`). -/
def hasSellerId (sellers : List PyObj) (sid : String) : Bool :=
  sellers.any fun s => sellerIdOf? s = some sid

/-- First-occurrence deduplication (Python dict key order), with an
accumulator of already-seen keys. -/
def dedupKeepFirst (seen : List String) : List String → List String
  | [] => []
  | a :: rest =>
    if a ∈ seen then dedupKeepFirst seen rest
    else a :: dedupKeepFirst (seen ++ [a]) rest

/-- `cand_by_id.keys()`: trimmed ids of the candidate sellers carrying the
key, in first-occurrence order (dict insertion order). -/
def candIds (cand : List PyObj) : List String :=
  dedupKeepFirst [] (cand.filterMap sellerIdOf?)

/-- `cand_by_id[sid]`: the last candidate entry bearing the id (later dict
insertions overwrite earlier ones). -/
def lastWithId (cand : List PyObj) (sid : String) : Option PyObj :=
  (cand.filter fun s => decide (sellerIdOf? s = some sid)).getLast?

/-- Result of `sellers_append.main`'s in-memory step: the updated document
and the summary fields. -/
structure AppendResult where
  doc : SellersDoc
  appended_ids : List String
  version_before : String
  version_after : String

/-- `append_new_sellers`: append the candidate entries whose non-empty trimmed
id is absent from base, in first-occurrence id order, then bump the minor
version only when at least one seller was appended (lines 64-79 of
sellers_append). -/
def append_new_sellers (base cand : SellersDoc) : AppendResult :=
  let newIds := (candIds cand.sellers).filter fun sid =>
    decide (sid ≠ "") && !hasSellerId base.sellers sid
  let newSellers := newIds.filterMap (lastWithId cand.sellers)
  let oldVersion := pyStr (base.version?.getD (.jstr "1.0"))
  if newSellers.isEmpty then
    { doc := ⟨base.version?, base.sellers⟩,
      appended_ids := newIds,
      version_before := oldVersion,
      version_after := oldVersion }
  else
    { doc := ⟨some (.jstr (bump_minor oldVersion)), base.sellers ++ newSellers⟩,
      appended_ids := newIds,
      version_before := oldVersion,
      version_after := bump_minor oldVersion }

/-! ## sellers_validate -/

/-- A single-quote character, as a string, for building error messages. -/
def squote : String := String.mk [Char.ofNat 39]

/-- The shape invariant of every record the normalizer can produce: non-empty
token fields, a literal relationship, an alphanumeric certification id, and
lower-casing already applied where the normalizer applies it. -/
def goodEntry (e : Entry) : Prop :=
  e.system.data ≠ [] ∧ (∀ c ∈ e.system.data, tokChar c = true) ∧
  pyLower e.system = e.system ∧
  e.pubid.data ≠ [] ∧ (∀ c ∈ e.pubid.data, tokChar c = true) ∧
  (e.rel = "DIRECT" ∨ e.rel = "RESELLER") ∧
  (∀ c ∈ e.caid.data, alnumChar c = true) ∧ pyLower e.caid = e.caid

/-! ## Theorems: the record order and canonical sorting -/

theorem strLtb_lex_iff : ∀ x y : List Char, strLtb x y = true ↔ List.Lex (· < ·) x y := by
  intro x
  induction x with
  | nil =>
    intro y
    cases y with
    | nil =>
      simp only [strLtb, Bool.false_eq_true, false_iff]
      exact List.Lex.not_nil_right _ _
    | cons d ds =>
      simp only [strLtb]
      constructor
      · intro _
        exact List.Lex.nil
      · intro _
        trivial
  | cons c cs ih =>
    intro y
    cases y with
    | nil =>
      simp only [strLtb, Bool.false_eq_true, false_iff]
      exact List.Lex.not_nil_right _ _
    | cons d ds =>
      by_cases hcd : c = d
      · subst hcd
        rw [show strLtb (c :: cs) (c :: ds) = strLtb cs ds by simp [strLtb]]
        rw [ih ds, List.Lex.cons_iff]
      · simp only [strLtb, if_neg hcd, decide_eq_true_eq]
        constructor
        · exact List.Lex.rel
        · intro hl
          cases hl with
          | cons h2 => exact absurd rfl hcd
          | rel h2 => exact h2

theorem strLtb_lt_iff (x y : String) : strLtb x.data y.data = true ↔ x < y := by
  rw [strLtb_lex_iff, String.lt_iff_toList_lt]
  exact Iff.rfl

theorem strLe_le_iff (x y : String) : strLe x y ↔ x ≤ y := by
  unfold strLe
  constructor
  · intro h
    apply not_lt.mp
    rw [← strLtb_lt_iff]
    intro hc
    rw [hc] at h
    exact absurd h (by decide)
  · intro h
    have hy : strLtb y.data x.data ≠ true := fun hc =>
      absurd ((strLtb_lt_iff y x).mp hc) (not_lt.mpr h)
    simp only [Bool.not_eq_true] at hy
    simp [hy]

theorem entryKey_injective : Function.Injective entryKey := by
  intro a b h
  cases a
  cases b
  simp only [entryKey, toLex_inj, Prod.mk.injEq] at h
  obtain ⟨g1, g2, g3, g4⟩ := h
  simp_all

theorem entryLe_iff (a b : Entry) : entryLe a b ↔ entryKey a ≤ entryKey b := by
  unfold entryLe entryLeb entryKey
  have hca := strLe_le_iff a.caid b.caid
  unfold strLe at hca
  by_cases h1 : a.system = b.system
  · by_cases h2 : a.pubid = b.pubid
    · by_cases h3 : a.rel = b.rel
      · rw [if_pos h1, if_pos h2, if_pos h3, hca]
        simp [Prod.Lex.le_iff, h1, h2, h3]
      · rw [if_pos h1, if_pos h2, if_neg h3, strLtb_lt_iff]
        simp [Prod.Lex.le_iff, h1, h2, h3]
    · rw [if_pos h1, if_neg h2, strLtb_lt_iff]
      simp [Prod.Lex.le_iff, h1, h2]
  · rw [if_neg h1, strLtb_lt_iff]
    simp [Prod.Lex.le_iff, h1]

theorem entryLe_total (a b : Entry) : entryLe a b ∨ entryLe b a := by
  rw [entryLe_iff, entryLe_iff]
  exact le_total _ _

theorem entryLe_trans {a b c : Entry} (h1 : entryLe a b) (h2 : entryLe b c) :
    entryLe a c := by
  rw [entryLe_iff] at *
  exact le_trans h1 h2

theorem entryLe_antisymm {a b : Entry} (h1 : entryLe a b) (h2 : entryLe b a) :
    a = b := by
  rw [entryLe_iff] at *
  exact entryKey_injective (le_antisymm h1 h2)

theorem mem_canon {a : Entry} {l : List Entry} : a ∈ canon l ↔ a ∈ l := by
  unfold canon
  rw [(List.perm_insertionSort entryLe l.dedup).mem_iff, List.mem_dedup]

theorem canon_nodup (l : List Entry) : (canon l).Nodup :=
  (List.perm_insertionSort entryLe l.dedup).nodup_iff.mpr (List.nodup_dedup l)

theorem canon_sorted (l : List Entry) : List.Sorted entryLe (canon l) :=
  @List.sorted_insertionSort Entry entryLe _
    ⟨fun a b => entryLe_total a b⟩ ⟨fun _ _ _ => entryLe_trans⟩ l.dedup

theorem canon_eq_of_mem_iff {l m : List Entry}
    (h : ∀ x, x ∈ l ↔ x ∈ m) : canon l = canon m := by
  have hperm : (canon l).Perm (canon m) :=
    (List.perm_ext_iff_of_nodup (canon_nodup l) (canon_nodup m)).mpr
      (fun a => by rw [mem_canon, mem_canon]; exact h a)
  exact @List.eq_of_perm_of_sorted Entry entryLe ⟨fun _ _ => entryLe_antisymm⟩ _ _
    hperm (canon_sorted l) (canon_sorted m)

theorem strLe_total (a b : String) : strLe a b ∨ strLe b a := by
  rw [strLe_le_iff, strLe_le_iff]
  exact le_total a b

theorem strLe_trans {a b c : String} (h1 : strLe a b) (h2 : strLe b c) :
    strLe a c := by
  rw [strLe_le_iff] at *
  exact le_trans h1 h2

theorem strLe_antisymm {a b : String} (h1 : strLe a b) (h2 : strLe b a) :
    a = b := by
  rw [strLe_le_iff] at *
  exact le_antisymm h1 h2

theorem sortStrings_sorted (l : List String) : List.Sorted strLe (sortStrings l) :=
  @List.sorted_insertionSort String strLe _
    ⟨fun a b => strLe_total a b⟩ ⟨fun _ _ _ => strLe_trans⟩ l

theorem sortStrings_perm (l : List String) : (sortStrings l).Perm l :=
  List.perm_insertionSort strLe l

theorem sortStrings_eq_of_mem_iff {l m : List String}
    (hl : l.Nodup) (hm : m.Nodup) (h : ∀ x, x ∈ l ↔ x ∈ m) :
    sortStrings l = sortStrings m := by
  have hperm : (sortStrings l).Perm (sortStrings m) :=
    ((sortStrings_perm l).trans
      ((List.perm_ext_iff_of_nodup hl hm).mpr h)).trans (sortStrings_perm m).symm
  exact @List.eq_of_perm_of_sorted String strLe ⟨fun _ _ => strLe_antisymm⟩ _ _
    hperm (sortStrings_sorted l) (sortStrings_sorted m)

/-! ## C1: merge idempotence -/

/-- C1: for every master record set and fixed collection of partner inputs,
re-running the merge on its own output with the same partner inputs leaves
the merged set unchanged and reports no additions (`added = ∅`). -/
theorem merge_idempotent (master : List Entry) (partnerTexts : List String) :
    mergeMaster (mergeMaster master partnerTexts) partnerTexts
      = mergeMaster master partnerTexts ∧
    addedOf (mergeMaster master partnerTexts) partnerTexts = [] := by
  have hmerge : mergeMaster (mergeMaster master partnerTexts) partnerTexts
      = mergeMaster master partnerTexts := by
    unfold mergeMaster
    apply canon_eq_of_mem_iff
    intro x
    constructor
    · intro hx
      rcases List.mem_append.mp hx with h | h
      · exact mem_canon.mp h
      · exact List.mem_append.mpr (Or.inr h)
    · intro hx
      rcases List.mem_append.mp hx with h | h
      · exact List.mem_append.mpr (Or.inl (mem_canon.mpr (List.mem_append.mpr (Or.inl h))))
      · exact List.mem_append.mpr (Or.inr h)
  refine ⟨hmerge, ?_⟩
  unfold addedOf
  rw [hmerge, List.filter_eq_nil_iff]
  intro a ha
  simp [ha]

/-! ## C2: diff -/

/-- C2: `diff(reference, candidate)` returns `missing = reference − candidate`
and `extra = candidate − reference`, both canonically sorted and
duplicate-free, and the status is OK exactly when `missing` is empty, so
`extra` alone never fails a publisher. -/
theorem diff_missing_extra (A B : List Entry) :
    (∀ e, e ∈ (diffSets A B).1 ↔ e ∈ A ∧ e ∉ B) ∧
    (∀ e, e ∈ (diffSets A B).2 ↔ e ∈ B ∧ e ∉ A) ∧
    List.Sorted entryLe (diffSets A B).1 ∧ (diffSets A B).1.Nodup ∧
    List.Sorted entryLe (diffSets A B).2 ∧ (diffSets A B).2.Nodup ∧
    (statusOfDiff A B = "OK" ↔ (diffSets A B).1 = []) := by
  refine ⟨?_, ?_, canon_sorted _, canon_nodup _, canon_sorted _, canon_nodup _, ?_⟩
  · intro e
    simp [diffSets, mem_canon, List.mem_filter]
  · intro e
    simp [diffSets, mem_canon, List.mem_filter]
  · unfold statusOfDiff
    by_cases h : (diffSets A B).1 = []
    · simp [h]
    · rw [if_neg h]
      constructor
      · intro hx
        exact absurd hx (by decide)
      · intro hx
        exact absurd hx h

/-! ## C6: invalid-lines channel -/

theorem pet_foldl (ls : List String) (acc : List Entry × List String) :
    ls.foldl
      (fun acc raw =>
        if isCommentOrBlank raw then acc
        else
          match parseEntryLine raw with
          | some e => (acc.1 ++ [e], acc.2)
          | none => (acc.1, acc.2 ++ [pyStrip raw]))
      acc
      = (acc.1 ++ ls.filterMap
           (fun raw => if isCommentOrBlank raw then none else parseEntryLine raw),
         acc.2 ++ (ls.filter fun raw =>
           !isCommentOrBlank raw && (parseEntryLine raw).isNone).map pyStrip) := by
  induction ls generalizing acc with
  | nil => simp
  | cons l ls ih =>
    rw [List.foldl_cons, ih]
    by_cases hc : isCommentOrBlank l
    · simp [hc]
    · cases hp : parseEntryLine l with
      | none => simp [hc, hp]
      | some e => simp [hc, hp]

/-- C6 counterexample: the update tool's invalid channel carries the line
stripped of surrounding whitespace rather than the raw line, and the checker's
`parse_entries` has no invalid channel at all — a grammar-mismatching line
vanishes from its output entirely. -/
theorem invalid_channel_counterexample :
    parse_entries_from_text "  bad line  " = ([], ["bad line"]) ∧
    "bad line" ≠ "  bad line  " ∧
    isCommentOrBlank "  bad line  " = false ∧
    parseEntryLine "  bad line  " = none ∧
    parse_entries "  bad line  " = [] :=
  ⟨rfl, by decide, rfl, rfl, rfl⟩

/-- C6 (amended): the update tool's normalizer routes every non-blank,
non-comment line that fails the entry grammar into the invalid-lines channel,
carrying the line stripped of surrounding whitespace, in input order and
without aborting; the checker's `parse_entries` instead keeps only the valid
records (its output is the canonical form of exactly the lines that parse),
silently discarding mismatching lines. -/
theorem invalid_lines_routed (text : String) :
    (parse_entries_from_text text).2
      = ((pySplitlines text).filter fun raw =>
          !isCommentOrBlank raw && (parseEntryLine raw).isNone).map pyStrip ∧
    (parse_entries_from_text text).1
      = (pySplitlines text).filterMap
          (fun raw => if isCommentOrBlank raw then none else parseEntryLine raw) ∧
    parse_entries text = canon (parse_entries_from_text text).1 := by
  have h := pet_foldl (pySplitlines text) ([], [])
  have h1 : (parse_entries_from_text text).1
      = (pySplitlines text).filterMap
          (fun raw => if isCommentOrBlank raw then none else parseEntryLine raw) := by
    unfold parse_entries_from_text
    rw [h]
    simp
  have h2 : (parse_entries_from_text text).2
      = ((pySplitlines text).filter fun raw =>
          !isCommentOrBlank raw && (parseEntryLine raw).isNone).map pyStrip := by
    unfold parse_entries_from_text
    rw [h]
    simp
  refine ⟨h2, h1, ?_⟩
  unfold parse_entries
  rw [h1]

/-! ## Character facts for the round-trip -/

theorem toNat_ofNat_valid (n : Nat) (h1 : 97 ≤ n) (h2 : n ≤ 122) :
    (Char.ofNat n).toNat = n := by
  unfold Char.ofNat
  split
  · simp [Char.toNat, Char.ofNatAux, UInt32.toNat]
  · rename_i h
    exact absurd (Or.inl (by omega)) h

theorem char_eq_of_toNat {a b : Char} (h : a.toNat = b.toNat) : a = b :=
  Char.eq_of_val_eq (UInt32.ext h)

theorem toNat_toLower (c : Char) :
    (Char.toLower c).toNat
      = if 65 ≤ c.toNat ∧ c.toNat ≤ 90 then c.toNat + 32 else c.toNat := by
  by_cases h : 65 ≤ c.toNat ∧ c.toNat ≤ 90
  · rw [if_pos h]
    have heq : Char.toLower c = Char.ofNat (c.toNat + 32) := by
      unfold Char.toLower
      exact if_pos (by omega)
    rw [heq, toNat_ofNat_valid _ (by omega) (by omega)]
  · rw [if_neg h]
    have heq : Char.toLower c = c := by
      unfold Char.toLower
      exact if_neg (by omega)
    rw [heq]

theorem toLower_idem (c : Char) : (Char.toLower c).toLower = Char.toLower c := by
  apply char_eq_of_toNat
  rw [toNat_toLower (Char.toLower c), toNat_toLower c]
  split_ifs <;> omega

theorem pyWsChar_toNat {c : Char} :
    pyWsChar c = true ↔
      c.toNat = 32 ∨ c.toNat = 9 ∨ c.toNat = 10 ∨ c.toNat = 13 ∨
      c.toNat = 11 ∨ c.toNat = 12 := by
  unfold pyWsChar
  simp only [Bool.or_eq_true, decide_eq_true_eq]
  constructor
  · rintro (((((h | h) | h) | h) | h) | h) <;> subst h <;> decide
  · rintro (h | h | h | h | h | h)
    · exact Or.inl (Or.inl (Or.inl (Or.inl (Or.inl (char_eq_of_toNat (b := ' ') h)))))
    · exact Or.inl (Or.inl (Or.inl (Or.inl (Or.inr (char_eq_of_toNat (b := '\t') h)))))
    · exact Or.inl (Or.inl (Or.inl (Or.inr (char_eq_of_toNat (b := '\n') h))))
    · exact Or.inl (Or.inl (Or.inr (char_eq_of_toNat (b := '\r') h)))
    · exact Or.inl (Or.inr (char_eq_of_toNat (b := '\x0b') h))
    · exact Or.inr (char_eq_of_toNat (b := '\x0c') h)

theorem tokChar_iff {c : Char} :
    tokChar c = true ↔ c ≠ ',' ∧ c ≠ '#' ∧ pyWsChar c = false := by
  unfold tokChar
  cases hw : pyWsChar c <;>
    simp [hw, decide_eq_true_eq]

theorem alnumChar_toNat {c : Char} :
    alnumChar c = true ↔
      (65 ≤ c.toNat ∧ c.toNat ≤ 90) ∨ (97 ≤ c.toNat ∧ c.toNat ≤ 122) ∨
      (48 ≤ c.toNat ∧ c.toNat ≤ 57) := by
  unfold alnumChar
  simp only [Bool.or_eq_true, Bool.and_eq_true, decide_eq_true_eq, Char.le_def]
  constructor
  · rintro ((h | h) | h)
    · exact Or.inl h
    · exact Or.inr (Or.inl h)
    · exact Or.inr (Or.inr h)
  · rintro (h | h | h)
    · exact Or.inl (Or.inl h)
    · exact Or.inl (Or.inr h)
    · exact Or.inr h

theorem tok_not_ws {c : Char} (h : tokChar c = true) : pyWsChar c = false :=
  (tokChar_iff.mp h).2.2

theorem alnum_not_ws {c : Char} (h : alnumChar c = true) : pyWsChar c = false := by
  cases hw : pyWsChar c
  · rfl
  · exfalso
    have h1 := alnumChar_toNat.mp h
    have h2 := pyWsChar_toNat.mp hw
    omega

theorem alnum_tok {c : Char} (h : alnumChar c = true) : tokChar c = true := by
  rw [tokChar_iff]
  refine ⟨?_, ?_, alnum_not_ws h⟩
  · intro hc
    subst hc
    exact absurd h (by decide)
  · intro hc
    subst hc
    exact absurd h (by decide)

theorem tok_toLower {c : Char} (h : tokChar c = true) :
    tokChar (Char.toLower c) = true := by
  by_cases hr : 65 ≤ c.toNat ∧ c.toNat ≤ 90
  · have hn : (Char.toLower c).toNat = c.toNat + 32 := by
      rw [toNat_toLower, if_pos hr]
    rw [tokChar_iff]
    refine ⟨?_, ?_, ?_⟩
    · intro hc
      have := congrArg Char.toNat hc
      rw [hn] at this
      simp only [show (',').toNat = 44 from rfl] at this
      omega
    · intro hc
      have := congrArg Char.toNat hc
      rw [hn] at this
      simp only [show ('#').toNat = 35 from rfl] at this
      omega
    · cases hw : pyWsChar (Char.toLower c)
      · rfl
      · exfalso
        have := pyWsChar_toNat.mp hw
        omega
  · have heq : Char.toLower c = c := char_eq_of_toNat (by rw [toNat_toLower, if_neg hr])
    rw [heq]
    exact h

theorem alnum_toLower {c : Char} (h : alnumChar c = true) :
    alnumChar (Char.toLower c) = true := by
  rw [alnumChar_toNat] at h ⊢
  rw [toNat_toLower]
  split_ifs <;> omega

theorem pyLower_data (s : String) : (pyLower s).data = s.data.map Char.toLower :=
  rfl

theorem pyLower_pyLower (s : String) : pyLower (pyLower s) = pyLower s := by
  unfold pyLower
  congr 1
  rw [show ((s.data.map Char.toLower).asString).data = s.data.map Char.toLower from rfl]
  rw [List.map_map]
  exact List.map_congr_left fun c _ => toLower_idem c

/-! ## Parser facts for the round-trip -/

theorem asString_data (l : List Char) : l.asString.data = l :=
  rfl

theorem data_asString (s : String) : s.data.asString = s :=
  rfl

theorem takeWhile_append_all {p : Char → Bool} {t r : List Char}
    (h : ∀ c ∈ t, p c = true) :
    (t ++ r).takeWhile p = t ++ r.takeWhile p := by
  induction t with
  | nil => simp
  | cons a t ih =>
    rw [List.cons_append, List.takeWhile_cons,
      if_pos (h a (List.mem_cons_self a t)), List.cons_append,
      ih fun c hc => h c (List.mem_cons_of_mem a hc)]

theorem dropWhile_append_all {p : Char → Bool} {t r : List Char}
    (h : ∀ c ∈ t, p c = true) :
    (t ++ r).dropWhile p = r.dropWhile p := by
  induction t with
  | nil => simp
  | cons a t ih =>
    rw [List.cons_append, List.dropWhile_cons,
      if_pos (h a (List.mem_cons_self a t)),
      ih fun c hc => h c (List.mem_cons_of_mem a hc)]

theorem takeWhile_all {p : Char → Bool} {t : List Char}
    (h : ∀ c ∈ t, p c = true) : t.takeWhile p = t := by
  have := takeWhile_append_all (r := []) h
  simpa using this

theorem dropWhile_all {p : Char → Bool} {t : List Char}
    (h : ∀ c ∈ t, p c = true) : t.dropWhile p = [] := by
  have := dropWhile_append_all (r := []) h
  simpa using this

theorem dropWs_cons_not_ws {c : Char} {cs : List Char} (h : pyWsChar c = false) :
    dropWs (c :: cs) = c :: cs := by
  simp [dropWs, List.dropWhile_cons, h]

theorem dropWs_cons_ws {c : Char} {cs : List Char} (h : pyWsChar c = true) :
    dropWs (c :: cs) = dropWs cs := by
  simp [dropWs, List.dropWhile_cons, h]

theorem dropWs_tok_append {t x : List Char} (ht : t ≠ [])
    (hall : ∀ c ∈ t, tokChar c = true) : dropWs (t ++ x) = t ++ x := by
  cases t with
  | nil => exact absurd rfl ht
  | cons a t =>
    rw [List.cons_append]
    exact dropWs_cons_not_ws (tok_not_ws (hall a (List.mem_cons_self a t)))

theorem dropWs_alnum {t : List Char} (ht : t ≠ [])
    (hall : ∀ c ∈ t, alnumChar c = true) : dropWs t = t := by
  cases t with
  | nil => exact absurd rfl ht
  | cons a t =>
    exact dropWs_cons_not_ws (alnum_not_ws (hall a (List.mem_cons_self a t)))

theorem stripLit_self (pat rest : List Char) :
    stripLit pat (pat ++ rest) = some rest := by
  induction pat with
  | nil => rfl
  | cons a ps ih => simp [stripLit, ih]

theorem matchRel_direct (rest : List Char) :
    matchRel ("DIRECT".data ++ rest) = some ("DIRECT", rest) := by
  unfold matchRel
  rw [stripLit_self]

theorem matchRel_reseller (rest : List Char) :
    matchRel ("RESELLER".data ++ rest) = some ("RESELLER", rest) := by
  unfold matchRel
  rw [show stripLit "DIRECT".data ("RESELLER".data ++ rest) = none from rfl,
    stripLit_self]

theorem matchRel_inv {cs : List Char} {gr : String × List Char}
    (h : matchRel cs = some gr) : gr.1 = "DIRECT" ∨ gr.1 = "RESELLER" := by
  unfold matchRel at h
  cases h1 : stripLit "DIRECT".data cs with
  | some x =>
    rw [h1] at h
    simp only [Option.some.injEq] at h
    rw [← h]
    exact Or.inl rfl
  | none =>
    rw [h1] at h
    cases h2 : stripLit "RESELLER".data cs with
    | some x =>
      rw [h2] at h
      simp only [Option.some.injEq] at h
      rw [← h]
      exact Or.inr rfl
    | none =>
      rw [h2] at h
      exact absurd h (by simp)

theorem parseTok_run {cs t rest : List Char} (hd : dropWs cs = t ++ ',' :: rest)
    (ht : t ≠ []) (hall : ∀ c ∈ t, tokChar c = true) :
    parseTok cs = some (t, ',' :: rest) := by
  unfold parseTok
  rw [hd, takeWhile_append_all hall, dropWhile_append_all hall]
  simp only [List.takeWhile_cons, List.dropWhile_cons,
    show tokChar ',' = false from rfl, Bool.false_eq_true, if_false,
    List.append_nil]
  rw [if_neg ht]

theorem parseTok_inv {cs : List Char} {g : List Char × List Char}
    (h : parseTok cs = some g) :
    g.1 ≠ [] ∧ ∀ c ∈ g.1, tokChar c = true := by
  unfold parseTok at h
  by_cases hc : (dropWs cs).takeWhile tokChar = []
  · rw [if_pos hc] at h
    exact absurd h (by simp)
  · rw [if_neg hc] at h
    simp only [Option.some.injEq] at h
    rw [← h]
    exact ⟨hc, fun c hcm => List.mem_takeWhile_imp hcm⟩

theorem parseComma_run (rest : List Char) : parseComma (',' :: rest) = some rest := by
  unfold parseComma
  rw [dropWs_cons_not_ws (by decide)]
  rfl

theorem parseCaidEnd_empty : parseCaidEnd [] = some "" :=
  rfl

theorem parseCaidEnd_run {cd : List Char} (hcd : cd ≠ [])
    (hall : ∀ c ∈ cd, alnumChar c = true) :
    parseCaidEnd (',' :: ' ' :: cd) = some cd.asString := by
  unfold parseCaidEnd
  rw [dropWs_cons_not_ws (by decide)]
  show (if (dropWs (' ' :: cd)).takeWhile alnumChar = [] then none
    else if dropWs ((dropWs (' ' :: cd)).dropWhile alnumChar) = [] then
      some ((dropWs (' ' :: cd)).takeWhile alnumChar).asString
    else none) = some cd.asString
  rw [show dropWs (' ' :: cd) = cd from by
    rw [dropWs_cons_ws (by decide)]; exact dropWs_alnum hcd hall]
  rw [takeWhile_all hall, dropWhile_all hall]
  rw [if_neg hcd]
  rfl

theorem parseCaidEnd_inv {cs : List Char} {s : String}
    (h : parseCaidEnd cs = some s) : ∀ c ∈ s.data, alnumChar c = true := by
  unfold parseCaidEnd at h
  split at h
  · simp only [Option.some.injEq] at h
    rw [← h]
    intro c hc
    exact absurd hc (by simp)
  · split at h
    · exact absurd h (by simp)
    · split at h
      · simp only [Option.some.injEq] at h
        rw [← h]
        intro c hc
        rw [asString_data] at hc
        exact List.mem_takeWhile_imp hc
      · exact absurd h (by simp)
  · exact absurd h (by simp)

/-! ## C9: round-trip -/

theorem parseEntryLine_good {line : String} {e : Entry}
    (h : parseEntryLine line = some e) : goodEntry e := by
  unfold parseEntryLine at h
  cases hg : entryGroups line.data with
  | none =>
    rw [hg] at h
    exact absurd h (by simp)
  | some g =>
    rw [hg] at h
    simp only [Option.map_some', Option.some.injEq] at h
    unfold entryGroups at hg
    simp only [Option.bind_eq_some, Option.map_eq_some'] at hg
    obtain ⟨g1, hg1, r2, hr2, g2, hg2, r4, hr4, gr, hgr, cd, hcd, hmk⟩ := hg
    obtain ⟨ht1, hall1⟩ := parseTok_inv hg1
    obtain ⟨ht2, hall2⟩ := parseTok_inv hg2
    have hrel := matchRel_inv hgr
    have hcall := parseCaidEnd_inv hcd
    rw [← hmk] at h
    rw [← h]
    refine ⟨?_, ?_, ?_, ?_, ?_, ?_, ?_, ?_⟩
    · show (pyLower g1.1.asString).data ≠ []
      rw [pyLower_data, asString_data]
      simp only [ne_eq, List.map_eq_nil_iff]
      exact ht1
    · intro c hc
      rw [pyLower_data, asString_data] at hc
      obtain ⟨c0, hc0, hceq⟩ := List.mem_map.mp hc
      rw [← hceq]
      exact tok_toLower (hall1 c0 hc0)
    · exact pyLower_pyLower _
    · show (g2.1.asString).data ≠ []
      rw [asString_data]
      exact ht2
    · intro c hc
      rw [asString_data] at hc
      exact hall2 c hc
    · cases hrel with
      | inl hd =>
        rw [hd]
        exact Or.inl rfl
      | inr hd =>
        rw [hd]
        exact Or.inr rfl
    · intro c hc
      rw [pyLower_data] at hc
      obtain ⟨c0, hc0, hceq⟩ := List.mem_map.mp hc
      rw [← hceq]
      exact alnum_toLower (hcall c0 hc0)
    · exact pyLower_pyLower _

theorem entryGroups_format {e : Entry} (h : goodEntry e) :
    entryGroups (formatEntry e).data = some (e.system, e.pubid, e.rel, e.caid) := by
  obtain ⟨hs1, hs2, _, hp1, hp2, hrel, hcall, _⟩ := h
  have hcomma : (", ").data = [',', ' '] := rfl
  by_cases hc : e.caid = ""
  · have hdata : (formatEntry e).data
        = e.system.data ++ ',' :: ' ' :: (e.pubid.data ++ ',' :: ' ' :: e.rel.data) := by
      unfold formatEntry
      rw [if_pos hc]
      simp [String.data_append, hcomma]
    unfold entryGroups
    rw [hdata]
    rw [parseTok_run (dropWs_tok_append hs1 hs2) hs1 hs2, Option.some_bind]
    rw [parseComma_run, Option.some_bind]
    have hd2 : dropWs (' ' :: (e.pubid.data ++ ',' :: ' ' :: e.rel.data))
        = e.pubid.data ++ ',' :: ' ' :: e.rel.data := by
      rw [dropWs_cons_ws (by decide)]
      exact dropWs_tok_append hp1 hp2
    rw [parseTok_run hd2 hp1 hp2, Option.some_bind]
    rw [parseComma_run, Option.some_bind]
    have hrne : e.rel.data ≠ [] := by
      cases hrel with
      | inl hd => rw [hd]; simp
      | inr hd => rw [hd]; simp
    have hd4 : dropWs (' ' :: e.rel.data) = e.rel.data := by
      rw [dropWs_cons_ws (by decide)]
      cases hrel with
      | inl hd => rw [hd]; rfl
      | inr hd => rw [hd]; rfl
    rw [hd4]
    cases hrel with
    | inl hd =>
      rw [hd, show ("DIRECT" : String).data = "DIRECT".data ++ [] from by simp,
        matchRel_direct, Option.some_bind, parseCaidEnd_empty, Option.map_some']
      rw [hc]
      rfl
    | inr hd =>
      rw [hd, show ("RESELLER" : String).data = "RESELLER".data ++ [] from by simp,
        matchRel_reseller, Option.some_bind, parseCaidEnd_empty, Option.map_some']
      rw [hc]
      rfl
  · have hcd : e.caid.data ≠ [] := by
      intro hx
      exact hc (by rw [← data_asString e.caid, hx]; rfl)
    have hdata : (formatEntry e).data
        = e.system.data ++ ',' :: ' ' ::
          (e.pubid.data ++ ',' :: ' ' :: (e.rel.data ++ ',' :: ' ' :: e.caid.data)) := by
      unfold formatEntry
      rw [if_neg hc]
      simp [String.data_append, hcomma]
    unfold entryGroups
    rw [hdata]
    rw [parseTok_run (dropWs_tok_append hs1 hs2) hs1 hs2, Option.some_bind]
    rw [parseComma_run, Option.some_bind]
    have hd2 : dropWs (' ' :: (e.pubid.data ++ ',' :: ' ' :: (e.rel.data ++ ',' :: ' ' :: e.caid.data)))
        = e.pubid.data ++ ',' :: ' ' :: (e.rel.data ++ ',' :: ' ' :: e.caid.data) := by
      rw [dropWs_cons_ws (by decide)]
      exact dropWs_tok_append hp1 hp2
    rw [parseTok_run hd2 hp1 hp2, Option.some_bind]
    rw [parseComma_run, Option.some_bind]
    have hd4 : dropWs (' ' :: (e.rel.data ++ ',' :: ' ' :: e.caid.data))
        = e.rel.data ++ ',' :: ' ' :: e.caid.data := by
      rw [dropWs_cons_ws (by decide)]
      cases hrel with
      | inl hd => rw [hd]; rfl
      | inr hd => rw [hd]; rfl
    rw [hd4]
    cases hrel with
    | inl hd =>
      rw [hd, show ("DIRECT" : String).data ++ ',' :: ' ' :: e.caid.data
          = "DIRECT".data ++ (',' :: ' ' :: e.caid.data) from rfl,
        matchRel_direct, Option.some_bind, parseCaidEnd_run hcd hcall,
        Option.map_some']
      rfl
    | inr hd =>
      rw [hd, show ("RESELLER" : String).data ++ ',' :: ' ' :: e.caid.data
          = "RESELLER".data ++ (',' :: ' ' :: e.caid.data) from rfl,
        matchRel_reseller, Option.some_bind, parseCaidEnd_run hcd hcall,
        Option.map_some']
      rfl

/-- C9: for every line matching the entry grammar, serializing the normalized
record with `format_entry` and reparsing yields the same record; and the
serialization appends the fourth field only for a non-empty certification id,
never emitting a trailing empty field. -/
theorem entry_roundtrip (line : String) (e : Entry)
    (h : parseEntryLine line = some e) :
    parseEntryLine (formatEntry e) = some e ∧
    (e.caid = "" → formatEntry e = e.system ++ ", " ++ e.pubid ++ ", " ++ e.rel) ∧
    (e.caid ≠ "" →
      formatEntry e = e.system ++ ", " ++ e.pubid ++ ", " ++ e.rel ++ ", " ++ e.caid) := by
  have hg := parseEntryLine_good h
  refine ⟨?_, ?_, ?_⟩
  · unfold parseEntryLine
    rw [entryGroups_format hg, Option.map_some']
    obtain ⟨_, _, hsfix, _, _, hrel, _, hcfix⟩ := hg
    simp only [Option.some.injEq]
    cases e with
    | mk s p r c =>
      simp only at hsfix hrel hcfix
      simp only [Entry.mk.injEq]
      refine ⟨hsfix, trivial, ?_, hcfix⟩
      cases hrel with
      | inl hd => rw [hd]; rfl
      | inr hd => rw [hd]; rfl
  · intro hcc
    unfold formatEntry
    rw [if_pos hcc]
    simp
  · intro hcc
    unfold formatEntry
    rw [if_neg hcc]
    simp [String.append_assoc]

/-- C9 witness: a concrete valid line parses, and its serialization reparses
to the same record. -/
theorem entry_roundtrip_witness :
    parseEntryLine "AdX.com, 123, DIRECT, AbC1"
      = some ⟨"adx.com", "123", "DIRECT", "abc1"⟩ ∧
    parseEntryLine (formatEntry ⟨"adx.com", "123", "DIRECT", "abc1"⟩)
      = some ⟨"adx.com", "123", "DIRECT", "abc1"⟩ :=
  ⟨by decide,
   (entry_roundtrip "AdX.com, 123, DIRECT, AbC1" ⟨"adx.com", "123", "DIRECT", "abc1"⟩
     (by decide)).1⟩

/-! ## C7: fetch-failure status -/

/-- C7 counterexample: a fetch that succeeds but returns an empty document is
classified ERROR_FETCHING even though the fetch did not fail — so ERROR is not
raised exactly on failed or unparseable fetches, and a successfully fetched
document is not always classified OK or MISSING. -/
theorem fetch_error_counterexample :
    checkRow [⟨"adx.com", "a1", "DIRECT", ""⟩] (some "")
      = ⟨"ERROR_FETCHING", [], [], 0⟩ ∧
    (some "" : Option String) ≠ none :=
  ⟨rfl, by decide⟩

/-- C7 (amended): a per-publisher check yields ERROR_FETCHING exactly when the
fetch failed or returned empty text (`if not content`); the ERROR outcome
carries no record data and a count of zero; a successfully fetched non-empty
document is classified OK or MISSING, both distinct from ERROR; and the loop
over publishers (a map over the rows) produces one report per row, so no
failure aborts the siblings. -/
theorem fetch_error_status (masterSet : List Entry) (fetches : List (Option String)) :
    (∀ f : Option String,
      ((checkRow masterSet f).status = "ERROR_FETCHING" ↔ (f = none ∨ f = some ""))) ∧
    (∀ f : Option String, (checkRow masterSet f).status = "ERROR_FETCHING" →
      (checkRow masterSet f).missing_lines = [] ∧
      (checkRow masterSet f).extra_lines = [] ∧
      (checkRow masterSet f).current_count = 0) ∧
    (∀ c : String, c ≠ "" →
      (checkRow masterSet (some c)).status = "OK" ∨
      (checkRow masterSet (some c)).status = "MISSING") ∧
    ("OK" : String) ≠ "ERROR_FETCHING" ∧ ("MISSING" : String) ≠ "ERROR_FETCHING" ∧
    processRows masterSet fetches = fetches.map (checkRow masterSet) ∧
    (processRows masterSet fetches).length = fetches.length := by
  refine ⟨?_, ?_, ?_, by decide, by decide, rfl, by simp [processRows]⟩
  · intro f
    cases f with
    | none => simp [checkRow]
    | some c =>
      by_cases hc : c = ""
      · subst hc
        simp [checkRow]
      · simp only [checkRow]
        rw [if_neg hc]
        constructor
        · intro h
          by_cases hm : (diffSets masterSet (parse_entries c)).1 = [] <;>
            simp [hm] at h
        · rintro (h | h)
          · exact absurd h (by simp)
          · simp only [Option.some.injEq] at h
            exact absurd h hc
  · intro f h
    cases f with
    | none => exact ⟨rfl, rfl, rfl⟩
    | some c =>
      by_cases hc : c = ""
      · subst hc
        exact ⟨rfl, rfl, rfl⟩
      · exfalso
        simp only [checkRow] at h
        rw [if_neg hc] at h
        by_cases hm : (diffSets masterSet (parse_entries c)).1 = [] <;>
          simp [hm] at h
  · intro c hc
    simp only [checkRow]
    rw [if_neg hc]
    by_cases hm : (diffSets masterSet (parse_entries c)).1 = []
    · exact Or.inl (by simp [hm])
    · exact Or.inr (by simp [hm])

/-- C7 witness: the amended theorem applied to a failed fetch and to a
successful non-empty fetch. -/
theorem fetch_error_status_witness :
    (checkRow [⟨"adx.com", "a1", "DIRECT", ""⟩] none).status = "ERROR_FETCHING" ∧
    (checkRow [⟨"adx.com", "a1", "DIRECT", ""⟩] none).missing_lines = [] ∧
    ((checkRow [⟨"adx.com", "a1", "DIRECT", ""⟩] (some "adx.com, a1, DIRECT")).status = "OK" ∨
     (checkRow [⟨"adx.com", "a1", "DIRECT", ""⟩] (some "adx.com, a1, DIRECT")).status = "MISSING") := by
  have h := fetch_error_status [⟨"adx.com", "a1", "DIRECT", ""⟩] []
  have herr := (h.1 none).mpr (Or.inl rfl)
  exact ⟨herr, (h.2.1 none herr).1, h.2.2.1 "adx.com, a1, DIRECT" (by decide)⟩

/-! ## Sellers append: helper lemmas -/

theorem mem_dedupKeepFirst :
    ∀ (l seen : List String) (a : String),
      a ∈ dedupKeepFirst seen l ↔ a ∈ l ∧ a ∉ seen := by
  intro l
  induction l with
  | nil => intro seen a; simp [dedupKeepFirst]
  | cons b rest ih =>
    intro seen a
    unfold dedupKeepFirst
    by_cases hb : b ∈ seen
    · rw [if_pos hb, ih]
      constructor
      · rintro ⟨h1, h2⟩
        exact ⟨List.mem_cons_of_mem b h1, h2⟩
      · rintro ⟨h1, h2⟩
        rcases List.mem_cons.mp h1 with h | h
        · subst h
          exact absurd hb h2
        · exact ⟨h, h2⟩
    · rw [if_neg hb]
      constructor
      · intro h
        rcases List.mem_cons.mp h with h | h
        · subst h
          exact ⟨List.mem_cons_self a rest, hb⟩
        · obtain ⟨h1, h2⟩ := (ih _ a).mp h
          simp only [List.mem_append, List.mem_singleton] at h2
          push_neg at h2
          exact ⟨List.mem_cons_of_mem b h1, h2.1⟩
      · rintro ⟨h1, h2⟩
        rcases List.mem_cons.mp h1 with h | h
        · subst h
          exact List.mem_cons_self a _
        · by_cases hab : a = b
          · subst hab
            exact List.mem_cons_self a _
          · apply List.mem_cons_of_mem
            rw [ih]
            refine ⟨h, ?_⟩
            simp only [List.mem_append, List.mem_singleton]
            push_neg
            exact ⟨h2, hab⟩

theorem nodup_dedupKeepFirst :
    ∀ (l seen : List String), (dedupKeepFirst seen l).Nodup ∧
      ∀ a ∈ dedupKeepFirst seen l, a ∉ seen := by
  intro l
  induction l with
  | nil => intro seen; simp [dedupKeepFirst]
  | cons b rest ih =>
    intro seen
    unfold dedupKeepFirst
    by_cases hb : b ∈ seen
    · rw [if_pos hb]
      exact ih seen
    · rw [if_neg hb]
      obtain ⟨hn, hs⟩ := ih (seen ++ [b])
      refine ⟨List.nodup_cons.mpr ⟨?_, hn⟩, ?_⟩
      · intro hmem
        have := hs b hmem
        simp at this
      · intro a ha
        rcases List.mem_cons.mp ha with h | h
        · subst h
          exact hb
        · intro hseen
          exact hs a h (List.mem_append_left _ hseen)

theorem sublist_dedupKeepFirst :
    ∀ (l seen : List String), (dedupKeepFirst seen l).Sublist l := by
  intro l
  induction l with
  | nil => intro seen; simp [dedupKeepFirst]
  | cons b rest ih =>
    intro seen
    unfold dedupKeepFirst
    by_cases hb : b ∈ seen
    · rw [if_pos hb]
      exact (ih seen).trans (List.sublist_cons_self b rest)
    · rw [if_neg hb]
      exact List.Sublist.cons₂ b (ih (seen ++ [b]))

theorem lastWithId_sound {cs : List PyObj} {sid : String} {s : PyObj}
    (h : lastWithId cs sid = some s) :
    s ∈ cs ∧ sellerIdOf? s = some sid := by
  unfold lastWithId at h
  have hm := List.mem_of_mem_getLast? h
  rw [List.mem_filter] at hm
  exact ⟨hm.1, of_decide_eq_true hm.2⟩

theorem lastWithId_isSome {cs : List PyObj} {sid : String}
    (h : ∃ s ∈ cs, sellerIdOf? s = some sid) :
    ∃ t, lastWithId cs sid = some t := by
  unfold lastWithId
  cases hg : (cs.filter fun s => decide (sellerIdOf? s = some sid)).getLast? with
  | some t => exact ⟨t, rfl⟩
  | none =>
    exfalso
    rw [List.getLast?_eq_none_iff] at hg
    obtain ⟨s, hs, hid⟩ := h
    have : s ∈ cs.filter fun s => decide (sellerIdOf? s = some sid) :=
      List.mem_filter.mpr ⟨hs, decide_eq_true hid⟩
    rw [hg] at this
    exact absurd this (by simp)

theorem indexOf_cons_of_ne {a b : String} (l : List String) (h : a ≠ b) :
    List.indexOf a (b :: l) = List.indexOf a l + 1 := by
  have hb : (b == a) = false := by
    simp only [beq_eq_false_iff_ne, ne_eq]
    exact fun he => h he.symm
  simp [List.indexOf_cons, hb]

theorem dedupKeepFirst_pairwise_indexOf :
    ∀ (l seen : List String),
      (dedupKeepFirst seen l).Pairwise fun a b =>
        List.indexOf a l < List.indexOf b l := by
  intro l
  induction l with
  | nil => intro seen; simp [dedupKeepFirst]
  | cons b rest ih =>
    intro seen
    unfold dedupKeepFirst
    by_cases hb : b ∈ seen
    · rw [if_pos hb]
      refine List.Pairwise.imp_of_mem ?_ (ih seen)
      intro x y hx hy hlt
      have hxs := (nodup_dedupKeepFirst rest seen).2 x hx
      have hys := (nodup_dedupKeepFirst rest seen).2 y hy
      have hxb : x ≠ b := fun he => hxs (he ▸ hb)
      have hyb : y ≠ b := fun he => hys (he ▸ hb)
      rw [indexOf_cons_of_ne rest hxb, indexOf_cons_of_ne rest hyb]
      omega
    · rw [if_neg hb]
      refine List.pairwise_cons.mpr ⟨?_, ?_⟩
      · intro y hy
        have hys := (nodup_dedupKeepFirst rest (seen ++ [b])).2 y hy
        have hyb : y ≠ b := fun he =>
          hys (he ▸ List.mem_append_right _ (List.mem_singleton.mpr rfl))
        have h0 : List.indexOf b (b :: rest) = 0 := by
          simp [List.indexOf_cons]
        rw [indexOf_cons_of_ne rest hyb, h0]
        exact Nat.succ_pos _
      · refine List.Pairwise.imp_of_mem ?_ (ih (seen ++ [b]))
        intro x y hx hy hlt
        have hxs := (nodup_dedupKeepFirst rest (seen ++ [b])).2 x hx
        have hys := (nodup_dedupKeepFirst rest (seen ++ [b])).2 y hy
        have hxb : x ≠ b := fun he =>
          hxs (he ▸ List.mem_append_right _ (List.mem_singleton.mpr rfl))
        have hyb : y ≠ b := fun he =>
          hys (he ▸ List.mem_append_right _ (List.mem_singleton.mpr rfl))
        rw [indexOf_cons_of_ne rest hxb, indexOf_cons_of_ne rest hyb]
        omega

theorem appended_ids_eq (base cand : SellersDoc) :
    (append_new_sellers base cand).appended_ids
      = (candIds cand.sellers).filter fun sid =>
          decide (sid ≠ "") && !hasSellerId base.sellers sid := by
  simp only [append_new_sellers]
  split <;> rfl

theorem appended_sellers_eq (base cand : SellersDoc) :
    (append_new_sellers base cand).doc.sellers
      = base.sellers ++
        ((append_new_sellers base cand).appended_ids.filterMap (lastWithId cand.sellers)) := by
  rw [appended_ids_eq]
  simp only [append_new_sellers]
  split
  · rename_i h
    rw [List.isEmpty_iff] at h
    rw [h, List.append_nil]
  · rfl

theorem appended_ids_iff (base cand : SellersDoc) (sid : String) :
    sid ∈ (append_new_sellers base cand).appended_ids ↔
      (sid ≠ "" ∧ (∃ s ∈ cand.sellers, sellerIdOf? s = some sid) ∧
        ¬ ∃ s ∈ base.sellers, sellerIdOf? s = some sid) := by
  rw [appended_ids_eq, List.mem_filter]
  unfold candIds
  rw [mem_dedupKeepFirst, List.mem_filterMap]
  simp only [List.not_mem_nil, not_false_iff, and_true,
    Bool.and_eq_true, decide_eq_true_eq, Bool.not_eq_true']
  unfold hasSellerId
  constructor
  · rintro ⟨hex, hne, hbase⟩
    refine ⟨hne, hex, ?_⟩
    intro ⟨s, hs, hid⟩
    have : cand.sellers.any (fun s => decide (sellerIdOf? s = some sid)) = true ∨ True := Or.inr trivial
    have hb : base.sellers.any (fun s => decide (sellerIdOf? s = some sid)) = true :=
      List.any_eq_true.mpr ⟨s, hs, decide_eq_true hid⟩
    rw [hbase] at hb
    exact absurd hb (by simp)
  · rintro ⟨hne, hex, hbase⟩
    refine ⟨hex, hne, ?_⟩
    cases hb : base.sellers.any fun s => decide (sellerIdOf? s = some sid)
    · rfl
    · exfalso
      obtain ⟨s, hs, hid⟩ := List.any_eq_true.mp hb
      exact hbase ⟨s, hs, of_decide_eq_true hid⟩

theorem filterMap_last_spine {cs : List PyObj} :
    ∀ ids : List String,
      (∀ sid ∈ ids, ∃ s ∈ cs, sellerIdOf? s = some sid) →
      ((ids.filterMap (lastWithId cs)).filterMap sellerIdOf?
          = ids ∧
        (ids.filterMap (lastWithId cs)).length = ids.length) := by
  intro ids
  induction ids with
  | nil => intro _; exact ⟨rfl, rfl⟩
  | cons sid rest ih =>
    intro h
    obtain ⟨t, ht⟩ := lastWithId_isSome (h sid (List.mem_cons_self _ _))
    obtain ⟨ihm, ihl⟩ := ih fun x hx => h x (List.mem_cons_of_mem _ hx)
    rw [List.filterMap_cons, ht]
    constructor
    · rw [List.filterMap_cons, (lastWithId_sound ht).2, ihm]
    · simp [ihl]

theorem appended_ids_sound (base cand : SellersDoc) :
    ∀ sid ∈ (append_new_sellers base cand).appended_ids,
      ∃ s ∈ cand.sellers, sellerIdOf? s = some sid :=
  fun sid h => ((appended_ids_iff base cand sid).mp h).2.1

/-! ## C4: append-only seller merge -/

/-- C4 counterexample: with an empty base, a candidate listing an empty-id
seller, two entries sharing id "1" and one entry with id "2" yields only two
appended sellers — the empty-id entry is dropped, only the *last* entry with
id "1" survives, and it is appended before the id-"2" entry, violating
"exactly those candidate sellers whose seller_id is absent from base, in
candidate's relative order". -/
theorem append_counterexample :
    ((append_new_sellers ⟨none, []⟩
        ⟨none, [[("seller_id", JVal.jstr ""), ("name", JVal.jstr "e")],
                [("seller_id", JVal.jstr "1"), ("name", JVal.jstr "x")],
                [("seller_id", JVal.jstr "2")],
                [("seller_id", JVal.jstr "1"), ("name", JVal.jstr "y")]]⟩).doc.sellers.length
       = 2) ∧
    (((append_new_sellers ⟨none, []⟩
        ⟨none, [[("seller_id", JVal.jstr ""), ("name", JVal.jstr "e")],
                [("seller_id", JVal.jstr "1"), ("name", JVal.jstr "x")],
                [("seller_id", JVal.jstr "2")],
                [("seller_id", JVal.jstr "1"), ("name", JVal.jstr "y")]]⟩).doc.sellers.map
        fun s => (pyGet? s "name").map pyStr) = [some "y", none]) ∧
    (append_new_sellers ⟨none, []⟩
        ⟨none, [[("seller_id", JVal.jstr ""), ("name", JVal.jstr "e")],
                [("seller_id", JVal.jstr "1"), ("name", JVal.jstr "x")],
                [("seller_id", JVal.jstr "2")],
                [("seller_id", JVal.jstr "1"), ("name", JVal.jstr "y")]]⟩).appended_ids
       = ["1", "2"] :=
  ⟨rfl, rfl, rfl⟩

/-- C4 (amended): `append_new_sellers` keeps every pre-existing base seller
unchanged, in place, and appends after them exactly one entry per candidate
seller id that is non-empty after trimming and absent from base — namely the
last candidate entry bearing that id — with the appended ids following the
order of their first occurrence in the candidate: they form a sublist of the
candidate's id sequence, and they are pairwise strictly increasing in
`List.indexOf`, the index of an id's first occurrence in that sequence, which
together with the membership characterization determines the appended id list
uniquely even when an id occurs several times in the candidate. -/
theorem append_new_sellers_amended (base cand : SellersDoc) :
    ((append_new_sellers base cand).doc.sellers.take base.sellers.length
       = base.sellers) ∧
    ((append_new_sellers base cand).doc.sellers.drop base.sellers.length
       = (append_new_sellers base cand).appended_ids.filterMap (lastWithId cand.sellers)) ∧
    (∀ sid, sid ∈ (append_new_sellers base cand).appended_ids ↔
      (sid ≠ "" ∧ (∃ s ∈ cand.sellers, sellerIdOf? s = some sid) ∧
        ¬ ∃ s ∈ base.sellers, sellerIdOf? s = some sid)) ∧
    (append_new_sellers base cand).appended_ids.Sublist
      (cand.sellers.filterMap sellerIdOf?) ∧
    ((append_new_sellers base cand).appended_ids.Pairwise fun a b =>
      List.indexOf a (cand.sellers.filterMap sellerIdOf?)
        < List.indexOf b (cand.sellers.filterMap sellerIdOf?)) := by
  refine ⟨?_, ?_, appended_ids_iff base cand, ?_, ?_⟩
  · rw [appended_sellers_eq, List.take_left]
  · rw [appended_sellers_eq, List.drop_left]
  · rw [appended_ids_eq]
    exact (List.filter_sublist _).trans (sublist_dedupKeepFirst _ [])
  · rw [appended_ids_eq]
    exact List.Pairwise.sublist (List.filter_sublist _)
      (dedupKeepFirst_pairwise_indexOf (cand.sellers.filterMap sellerIdOf?) [])

/-! ## C5: minor-version bump -/

/-- C5: when at least one seller is appended, the version is rewritten by
`bump_minor`, which parses the first two dot-separated components as integers
(further components are ignored) and rejoins them with the minor part
incremented; a version without two integer components is left unchanged
rather than failing, and when nothing is appended the version (present or
absent) is untouched. -/
theorem version_bump_spec :
    (∀ (s p0 p1 : String) (ps : List String) (maj mnr : Int),
      pySplit '.' s = p0 :: p1 :: ps → pyInt? p0 = some maj → pyInt? p1 = some mnr →
      bump_minor s = toString maj ++ "." ++ toString (mnr + 1)) ∧
    (∀ s : String, (pySplit '.' s).length < 2 → bump_minor s = s) ∧
    (∀ (s p0 p1 : String) (ps : List String),
      pySplit '.' s = p0 :: p1 :: ps → (pyInt? p0 = none ∨ pyInt? p1 = none) →
      bump_minor s = s) ∧
    bump_minor "1.3" = "1.4" ∧
    (∀ base cand : SellersDoc, (append_new_sellers base cand).appended_ids ≠ [] →
      (append_new_sellers base cand).doc.version?
        = some (.jstr (bump_minor (pyStr (base.version?.getD (.jstr "1.0")))))) ∧
    (∀ base cand : SellersDoc, (append_new_sellers base cand).appended_ids = [] →
      (append_new_sellers base cand).doc.version? = base.version?) := by
  refine ⟨?_, ?_, ?_, by decide, ?_, ?_⟩
  · intro s p0 p1 ps maj mnr hsplit hp0 hp1
    unfold bump_minor
    rw [hsplit]
    show (match pyInt? p0, pyInt? p1 with
      | some major, some minor => toString major ++ "." ++ toString (minor + 1)
      | _, _ => s) = _
    rw [hp0, hp1]
  · intro s h
    unfold bump_minor
    cases hs : pySplit '.' s with
    | nil => rfl
    | cons p0 tl =>
      cases tl with
      | nil => rfl
      | cons p1 ps =>
        rw [hs] at h
        simp only [List.length_cons] at h
        exfalso
        omega
  · intro s p0 p1 ps hsplit hbad
    unfold bump_minor
    rw [hsplit]
    show (match pyInt? p0, pyInt? p1 with
      | some major, some minor => toString major ++ "." ++ toString (minor + 1)
      | _, _ => s) = s
    rcases hbad with h | h
    · rw [h]
    · rw [h]
      cases pyInt? p0 <;> rfl
  · intro base cand h
    rw [appended_ids_eq] at h
    have hsound := appended_ids_sound base cand
    rw [appended_ids_eq] at hsound
    have hlen := (@filterMap_last_spine cand.sellers _ hsound).2
    simp only [append_new_sellers]
    split
    · rename_i hemp
      exfalso
      rw [List.isEmpty_iff] at hemp
      apply h
      have := hlen
      rw [hemp] at this
      simp only [List.length_nil] at this
      exact List.length_eq_zero.mp this.symm
    · rfl
  · intro base cand h
    rw [appended_ids_eq] at h
    have hsound := appended_ids_sound base cand
    rw [appended_ids_eq] at hsound
    have hlen := (@filterMap_last_spine cand.sellers _ hsound).2
    simp only [append_new_sellers]
    split
    · rfl
    · rename_i hemp
      exfalso
      apply hemp
      rw [List.isEmpty_iff, h]
      simp

/-- C5 witness: concrete bumps and concrete append runs discharging the
hypotheses of `version_bump_spec`. -/
theorem version_bump_spec_witness :
    bump_minor "1.3.9" = "1.4" ∧
    bump_minor "weird" = "weird" ∧
    bump_minor "1.x" = "1.x" ∧
    (append_new_sellers ⟨some (.jstr "1.3"), []⟩
        ⟨none, [[("seller_id", JVal.jstr "1"), ("name", JVal.jstr "x")]]⟩).doc.version?
      = some (.jstr "1.4") ∧
    (append_new_sellers ⟨some (.jstr "1.3"), []⟩ ⟨none, []⟩).doc.version?
      = some (.jstr "1.3") := by
  have h := version_bump_spec
  refine ⟨?_, ?_, ?_, ?_, ?_⟩
  · exact (h.1 "1.3.9" "1" "3" ["9"] 1 3 (by decide) (by decide) (by decide)).trans (by decide)
  · exact h.2.1 "weird" (by decide)
  · exact h.2.2.1 "1.x" "1" "x" [] (by decide) (Or.inr (by decide))
  · exact (h.2.2.2.2.1 ⟨some (.jstr "1.3"), []⟩
      ⟨none, [[("seller_id", JVal.jstr "1"), ("name", JVal.jstr "x")]]⟩
      (by decide)).trans (by rfl)
  · exact h.2.2.2.2.2 ⟨some (.jstr "1.3"), []⟩ ⟨none, []⟩ (by decide)

/-! ## C10: appended-entry hygiene -/

/-- C10: no appended seller lacks a seller_id or carries one that trims to
the empty string; the appended ids are duplicate-free; the ids of the
appended entries are exactly `appended_ids` in order (so a seller_id shared
by several candidate entries is appended exactly once); and every appended
entry yields a non-empty trimmed id. -/
theorem append_id_hygiene (base cand : SellersDoc) :
    ("" ∉ (append_new_sellers base cand).appended_ids) ∧
    (append_new_sellers base cand).appended_ids.Nodup ∧
    (((append_new_sellers base cand).doc.sellers.drop base.sellers.length).filterMap
        sellerIdOf? = (append_new_sellers base cand).appended_ids) ∧
    (((append_new_sellers base cand).doc.sellers.drop base.sellers.length).length
       = (append_new_sellers base cand).appended_ids.length) ∧
    (∀ s ∈ (append_new_sellers base cand).doc.sellers.drop base.sellers.length,
      ∃ sid, sellerIdOf? s = some sid ∧ sid ≠ "") := by
  have hdrop : (append_new_sellers base cand).doc.sellers.drop base.sellers.length
      = (append_new_sellers base cand).appended_ids.filterMap (lastWithId cand.sellers) := by
    rw [appended_sellers_eq, List.drop_left]
  have hspine := @filterMap_last_spine cand.sellers
    (append_new_sellers base cand).appended_ids (appended_ids_sound base cand)
  refine ⟨?_, ?_, ?_, ?_, ?_⟩
  · intro hmem
    exact (((appended_ids_iff base cand "").mp hmem).1) rfl
  · rw [appended_ids_eq]
    exact ((nodup_dedupKeepFirst _ []).1).filter _
  · rw [hdrop]
    exact hspine.1
  · rw [hdrop]
    exact hspine.2
  · intro s hs
    rw [hdrop] at hs
    obtain ⟨sid, hsid, hlast⟩ := List.mem_filterMap.mp hs
    exact ⟨sid, (lastWithId_sound hlast).2,
      ((appended_ids_iff base cand sid).mp hsid).1⟩

/-- C10 witness: the hygiene theorem applied to a one-seller candidate. -/
theorem append_id_hygiene_witness :
    ∃ sid, sellerIdOf? [("seller_id", JVal.jstr "1"), ("name", JVal.jstr "x")]
        = some sid ∧ sid ≠ "" :=
  (append_id_hygiene ⟨none, []⟩
      ⟨none, [[("seller_id", JVal.jstr "1"), ("name", JVal.jstr "x")]]⟩).2.2.2.2
    [("seller_id", JVal.jstr "1"), ("name", JVal.jstr "x")]
    (List.mem_cons_self _ _)

/-! ## C8: validator domain rules -/

theorem getIds_addId (st : ByKey) (k k' : String × String × String) (c : String) :
    getIds (addId st k c) k'
      = if k' = k then
          (if c ∈ getIds st k then getIds st k else getIds st k ++ [c])
        else getIds st k' := by
  induction st with
  | nil =>
    by_cases hk : k' = k
    · subst hk
      simp [addId, getIds]
    · have hk2 : ¬(k = k') := fun h => hk h.symm
      simp [addId, getIds, hk, hk2]
  | cons kv rest ih =>
    by_cases hkv : kv.1 = k
    · by_cases hk : k' = k
      · subst hk
        simp [addId, getIds, hkv]
      · have hk2 : ¬(k = k') := fun h => hk h.symm
        simp [addId, getIds, hkv, hk, hk2]
    · by_cases hkvk' : kv.1 = k'
      · have hk : ¬(k' = k) := fun h => hkv (hkvk'.trans h)
        simp [addId, getIds, hkv, hkvk', hk]
      · simp [addId, getIds, hkv, hkvk', ih]

theorem mem_addIfAbsent {ids : List String} {c x : String} :
    x ∈ (if c ∈ ids then ids else ids ++ [c]) ↔ (x ∈ ids ∨ x = c) := by
  by_cases h : c ∈ ids
  · rw [if_pos h]
    constructor
    · exact Or.inl
    · rintro (hx | hx)
      · exact hx
      · exact hx ▸ h
  · rw [if_neg h]
    simp

theorem nodup_addIfAbsent {ids : List String} {c : String} (h : ids.Nodup) :
    (if c ∈ ids then ids else ids ++ [c]).Nodup := by
  by_cases hc : c ∈ ids
  · rw [if_pos hc]
    exact h
  · rw [if_neg hc]
    rw [List.nodup_append]
    exact ⟨h, List.nodup_singleton c, fun a ha hb => hc ((List.mem_singleton.mp hb) ▸ ha)⟩

theorem seed_fold_mem :
    ∀ (ms : List Entry) (st : ByKey) (k : String × String × String) (x : String),
      x ∈ getIds (ms.foldl (fun st e => addId st (keyOf e) e.caid) st) k ↔
        (x ∈ getIds st k ∨ x ∈ (ms.filter fun e => decide (keyOf e = k)).map Entry.caid) := by
  intro ms
  induction ms with
  | nil =>
    intro st k x
    simp
  | cons e ms ih =>
    intro st k x
    rw [List.foldl_cons, ih]
    rw [getIds_addId]
    by_cases hk : k = keyOf e
    · subst hk
      rw [if_pos rfl, mem_addIfAbsent]
      rw [List.filter_cons, if_pos (by simp)]
      simp only [List.map_cons, List.mem_cons]
      tauto
    · rw [if_neg hk]
      rw [List.filter_cons, if_neg (by simp; exact fun h => hk h.symm)]

theorem seed_fold_nodup :
    ∀ (ms : List Entry) (st : ByKey),
      (∀ k, (getIds st k).Nodup) →
      ∀ k, (getIds (ms.foldl (fun st e => addId st (keyOf e) e.caid) st) k).Nodup := by
  intro ms
  induction ms with
  | nil => intro st h k; exact h k
  | cons e ms ih =>
    intro st h k
    rw [List.foldl_cons]
    apply ih
    intro k'
    rw [getIds_addId]
    by_cases hk : k' = keyOf e
    · rw [if_pos hk]
      exact nodup_addIfAbsent (h _)
    · rw [if_neg hk]
      exact h k'

theorem getIds_seed_mem (master : List Entry) (k : String × String × String)
    (x : String) :
    x ∈ getIds (seedByKey master) k ↔ x ∈ knownIds master [] k := by
  unfold seedByKey knownIds
  rw [seed_fold_mem]
  simp [getIds]

theorem getIds_seed_nodup (master : List Entry) (k : String × String × String) :
    (getIds (seedByKey master) k).Nodup := by
  unfold seedByKey
  exact seed_fold_nodup master [] (fun _ => List.nodup_nil) k

theorem knownIds_append (master pre : List Entry) (e : Entry)
    (k : String × String × String) :
    knownIds master (pre ++ [e]) k
      = knownIds master pre k ++
        (if keyOf e = k ∧ e.caid ≠ "" then [e.caid] else []) := by
  unfold knownIds
  rw [List.filter_append, List.map_append, List.append_assoc]
  congr 1
  by_cases h : keyOf e = k ∧ e.caid ≠ ""
  · rw [if_pos h, List.filter_cons, if_pos (by simp [h.1, h.2]), List.filter_nil]
    rfl
  · rw [if_neg h, List.filter_cons, if_neg (by simpa using h), List.filter_nil]
    rfl

theorem scanStep_eq (master : List Entry) (dups : List (String × String))
    (confs : List Conflict) (st : ByKey) (fe : String × Entry) :
    scanStep master (dups, confs, st) fe
      = ((if fe.2 ∈ master then dups ++ [(fe.1, formatEntry fe.2)] else dups),
         (if fe.2.caid ≠ "" then
            (if getIds st (keyOf fe.2) ≠ [] ∧ fe.2.caid ∉ getIds st (keyOf fe.2) ∧
                (getIds st (keyOf fe.2)).any (fun x => decide (x ≠ "")) then
              confs ++ [⟨fe.1, formatEntry fe.2, sortStrings (getIds st (keyOf fe.2))⟩]
            else confs)
          else confs),
         (if fe.2.caid ≠ "" then addId st (keyOf fe.2) fe.2.caid else st)) := by
  by_cases hc : fe.2.caid ≠ "" <;> simp [scanStep, hc]

theorem scan_fold_conflicts (master : List Entry) :
    ∀ (recs : List (String × Entry)) (dups : List (String × String))
      (confs : List Conflict) (st : ByKey) (pre : List Entry),
      (∀ k x, x ∈ getIds st k ↔ x ∈ knownIds master pre k) →
      (∀ k, (getIds st k).Nodup) →
      (recs.foldl (scanStep master) (dups, confs, st)).2.1
        = confs ++ conflictsSpec master recs pre := by
  intro recs
  induction recs with
  | nil =>
    intro dups confs st pre _ _
    simp [conflictsSpec]
  | cons fe rest ih =>
    intro dups confs st pre hinv hnd
    rw [List.foldl_cons, scanStep_eq]
    by_cases hc : fe.2.caid ≠ ""
    · rw [if_pos hc, if_pos hc]
      have hinv' : ∀ k x,
          x ∈ getIds (addId st (keyOf fe.2) fe.2.caid) k ↔
            x ∈ knownIds master (pre ++ [fe.2]) k := by
        intro k x
        rw [getIds_addId, knownIds_append, List.mem_append]
        by_cases hk : k = keyOf fe.2
        · subst hk
          rw [if_pos rfl, mem_addIfAbsent, hinv]
          rw [if_pos ⟨rfl, hc⟩]
          simp
        · rw [if_neg hk, hinv]
          rw [if_neg (fun h => hk h.1.symm)]
          simp
      have hnd' : ∀ k, (getIds (addId st (keyOf fe.2) fe.2.caid) k).Nodup := by
        intro k
        rw [getIds_addId]
        by_cases hk : k = keyOf fe.2
        · rw [if_pos hk]
          exact nodup_addIfAbsent (hnd _)
        · rw [if_neg hk]
          exact hnd k
      have hcondiff :
          (getIds st (keyOf fe.2) ≠ [] ∧ fe.2.caid ∉ getIds st (keyOf fe.2) ∧
            (getIds st (keyOf fe.2)).any (fun x => decide (x ≠ "")) = true) ↔
          (fe.2.caid ∉ knownIds master pre (keyOf fe.2) ∧
            ∃ x ∈ knownIds master pre (keyOf fe.2), x ≠ "") := by
        constructor
        · rintro ⟨_, h2, h3⟩
          refine ⟨fun hx => h2 ((hinv _ _).mpr hx), ?_⟩
          obtain ⟨x, hx, hxne⟩ := List.any_eq_true.mp h3
          exact ⟨x, (hinv _ _).mp hx, of_decide_eq_true hxne⟩
        · rintro ⟨h2, x, hx, hxne⟩
          have hxmem : x ∈ getIds st (keyOf fe.2) := (hinv _ _).mpr hx
          refine ⟨List.ne_nil_of_mem hxmem, fun hm => h2 ((hinv _ _).mp hm), ?_⟩
          exact List.any_eq_true.mpr ⟨x, hxmem, decide_eq_true hxne⟩
      rw [ih _ _ _ (pre ++ [fe.2]) hinv' hnd']
      have hcons : conflictsSpec master (fe :: rest) pre
          = (if fe.2.caid ≠ "" ∧ fe.2.caid ∉ knownIds master pre (keyOf fe.2) ∧
                (∃ x ∈ knownIds master pre (keyOf fe.2), x ≠ "") then
              [⟨fe.1, formatEntry fe.2,
                sortStrings (knownIds master pre (keyOf fe.2)).dedup⟩]
            else []) ++ conflictsSpec master rest (pre ++ [fe.2]) := rfl
      rw [hcons]
      by_cases hs : fe.2.caid ∉ knownIds master pre (keyOf fe.2) ∧
          ∃ x ∈ knownIds master pre (keyOf fe.2), x ≠ ""
      · rw [if_pos (hcondiff.mpr hs), if_pos ⟨hc, hs.1, hs.2⟩]
        have hpayload : sortStrings (getIds st (keyOf fe.2))
            = sortStrings (knownIds master pre (keyOf fe.2)).dedup :=
          sortStrings_eq_of_mem_iff (hnd _) (List.nodup_dedup _)
            (fun x => (hinv _ x).trans (List.mem_dedup).symm)
        rw [hpayload, List.append_assoc]
      · rw [if_neg (fun hx => hs (hcondiff.mp hx)),
          if_neg (fun hx => hs ⟨hx.2.1, hx.2.2⟩)]
        simp
    · rw [if_neg hc, if_neg hc]
      have hceq : fe.2.caid = "" := by
        by_contra hx
        exact hc hx
      have hinv' : ∀ k x,
          x ∈ getIds st k ↔ x ∈ knownIds master (pre ++ [fe.2]) k := by
        intro k x
        rw [knownIds_append, List.mem_append, hinv]
        rw [if_neg (fun h => hc h.2)]
        simp
      rw [ih _ _ _ (pre ++ [fe.2]) hinv' hnd]
      have hcons : conflictsSpec master (fe :: rest) pre
          = (if fe.2.caid ≠ "" ∧ fe.2.caid ∉ knownIds master pre (keyOf fe.2) ∧
                (∃ x ∈ knownIds master pre (keyOf fe.2), x ≠ "") then
              [⟨fe.1, formatEntry fe.2,
                sortStrings (knownIds master pre (keyOf fe.2)).dedup⟩]
            else []) ++ conflictsSpec master rest (pre ++ [fe.2]) := rfl
      rw [hcons, if_neg (fun h => hc h.1)]
      simp

/-- C3 counterexample: when the master lists both an empty and a non-empty
certification id for a key, the conflict raised by a new id carries the full
tracked id set `["", "abc"]` — the empty id included — not the set of
distinct non-empty ids `["abc"]` that the claim says is tracked and carried. -/
theorem conflict_payload_counterexample :
    (conflictsOf
        [⟨"adx.com", "123", "DIRECT", ""⟩, ⟨"adx.com", "123", "DIRECT", "abc"⟩]
        [("partner.txt", ⟨"adx.com", "123", "DIRECT", "xyz"⟩)]).map Conflict.existing
      = [["", "abc"]] ∧
    ([["", "abc"]] : List (List String)) ≠ [["abc"]] :=
  ⟨by decide, by decide⟩

/-- C3 (amended): the scan raises a conflict for a partner record exactly when
its non-empty certification id is absent from the id set tracked for its key
while that set already holds at least one non-empty id; the tracked set is
seeded with all of the master's ids for the key — the empty id included — and
grows with the non-empty ids of the already-processed partner records, and
the conflict carries that full tracked set, canonically sorted (so it can
contain the empty id); records with an empty certification id never raise a
conflict and never extend the tracked set.  `conflictsSpec` states this
walk extensionally; the scan implements it. -/
theorem conflicts_characterization (master : List Entry)
    (recs : List (String × Entry)) :
    conflictsOf master recs = conflictsSpec master recs [] := by
  unfold conflictsOf scanPartners
  rw [scan_fold_conflicts master recs [] [] (seedByKey master) []
    (fun k x => getIds_seed_mem master k x) (fun k => getIds_seed_nodup master k)]
  simp
